import Mathlib

/-!
Shallow embedding of the schema-reflection subsystem of
`src/sqlalchemy/dialects/h2/base.py` (the H2 dialect's `H2Dialect` class):
the catalog query texts it interpolates, and the pure row-to-record parsing
done by `get_columns`, `has_table`, `get_primary_keys`, `get_pk_constraint`,
`get_foreign_keys` and `get_indexes`.  A connection is modelled as a function
from a query text to the rows it returns.
-/

set_option maxRecDepth 40000

namespace H2

/-- Python's `str.upper` as the source applies it to ASCII identifiers
(`schema.upper()`, `table_name.upper()`): uppercase every character. -/
def upper (s : String) : String := ⟨s.data.map Char.toUpper⟩

/-- Modelled from the spec: the host toolkit's identifier-quoting collaborator
(`self.identifier_preparer.quote_identifier`), which surrounds the escaped
identifier with the preparer's initial and final quote characters.
`H2IdentifierPreparer.__init__` (src lines 111-120) passes `initial_quote=""`
and `escape_quote=""` (and `final_quote=None`, which the host replaces by the
initial quote), so for this dialect quoting returns the identifier unchanged. -/
def quote_identifier (s : String) : String := s

/-- Modelled from the spec: the host's identifier-unescaping collaborator
(`preparer._unescape_identifier`), which replaces the doubled escape-quote by
the escape-quote.  `H2IdentifierPreparer` passes `escape_quote=""`, so for this
dialect unescaping returns the identifier unchanged. -/
def unescape_identifier (s : String) : String := s

/-- `H2Dialect._get_default_schema_name` (src lines 181-182): always `PUBLIC`. -/
def get_default_schema_name : String := "PUBLIC"

/-- The dialect's recorded default schema (`self.default_schema_name`), which
the host sets once from `_get_default_schema_name` when the dialect is
initialized. -/
def default_schema_name : String := get_default_schema_name

/-! ## Catalog query texts

Each definition below is the query string the corresponding method sends,
after the source's `%` interpolation of the (possibly case-normalized)
table and schema names.  `Option String` mirrors a `schema` argument that may
be Python `None`. -/

/-- The query text of `H2Dialect.table_names` (src lines 151-158): when a
schema is given it is upper-cased and quoted, when it is `None` the literal
`'PUBLIC'` is hard-coded. -/
def table_names_SQL : Option String → String
  | some schema =>
      "SELECT table_name FROM information_schema.tables " ++
      "WHERE table_type='TABLE' AND table_schema=" ++
      quote_identifier (upper schema) ++ " ORDER BY table_name"
  | none =>
      "SELECT table_name FROM information_schema.tables " ++
      "WHERE table_type='TABLE' AND table_schema='PUBLIC' ORDER BY table_name"

/-- The query text of `H2Dialect.has_table` (src lines 185-192). -/
def has_table_SQL (table_name : String) : Option String → String
  | some schema =>
      "SELECT table_name FROM information_schema.tables " ++
      "WHERE table_type='TABLE' AND table_schema=" ++
      quote_identifier (upper schema) ++ " AND table_name=" ++
      quote_identifier (upper table_name)
  | none =>
      "SELECT table_name FROM information_schema.tables " ++
      "WHERE table_type='TABLE' AND table_schema='PUBLIC' AND table_name=" ++
      quote_identifier (upper table_name)

/-- The `SQL_COLS` text of `H2Dialect.get_columns` (src lines 208-223) after
`SQL_COLS % (table_name, schema)`: the names are substituted verbatim. -/
def SQL_COLS (table_name schema : String) : String :=
  "\n\t\t\t\t SELECT C.COLUMN_NAME, C.TYPE_NAME,\n" ++
  "\t\t\t\t\tC.COLUMN_DEFAULT,\n" ++
  "\t\t\t\t\tC.IS_NULLABLE,\n" ++
  "\t\t\t\t\t(Select T.AUTO_INCREMENT\n" ++
  "\t\t\t\t\tfrom INFORMATION_SCHEMA.TYPE_INFO T\n" ++
  "\t\t\t\t\twhere T.DATA_TYPE = C.DATA_TYPE and T.TYPE_NAME=C.TYPE_NAME ) AS AUTO_INCREMENT,\n" ++
  "\t\t\t\t\tC.CHARACTER_MAXIMUM_LENGTH\n" ++
  "\t\t\t\t\tFROM INFORMATION_SCHEMA.COLUMNS C\n" ++
  "\t\t\t\t\t   WHERE TABLE_NAME = '" ++ table_name ++ "'\n" ++
  "\t\t\t\t\t   AND TABLE_SCHEMA = '" ++ schema ++ "'\n\t\t"

/-- The `PK_SQL` text of `H2Dialect.get_primary_keys` (src lines 343-350). -/
def PK_SQL (table_name schema : String) : String :=
  "\n\t\t  select COLUMN_NAME from\n" ++
  "\t\t\tINFORMATION_SCHEMA.INDEXES\n" ++
  "\t\t\twhere PRIMARY_KEY = 'TRUE'\n" ++
  "\t\t\tAND TABLE_NAME = '" ++ table_name ++ "'\n" ++
  "\t\t\tAND TABLE_SCHEMA = '" ++ schema ++ "'\n\t\t"

/-- The `PK_CONS_SQL` text of `H2Dialect.get_pk_constraint` (src lines 366-375). -/
def PK_CONS_SQL (table_name schema : String) : String :=
  "\n\t\tSELECT CONSTRAINT_NAME\n" ++
  "\t\t\tFROM INFORMATION_SCHEMA.CONSTRAINTS\n" ++
  "\t\t\tWHERE  TABLE_NAME= '" ++ table_name ++ "'\n" ++
  "\t\t\tand TABLE_SCHEMA = '" ++ schema ++ "'\n" ++
  "\t\t\tand CONSTRAINT_TYPE = 'PRIMARY_KEY'\n\n\t\t"

/-- The `FK_CONS_SQL` text of `H2Dialect.get_foreign_keys` (src lines 393-401). -/
def FK_CONS_SQL (table_name schema : String) : String :=
  "\n\t\tSELECT CONSTRAINT_NAME, SQL as condef\n" ++
  "\t\t\tFROM INFORMATION_SCHEMA.CONSTRAINTS\n" ++
  "\t\t\tWHERE  TABLE_NAME= '" ++ table_name ++ "'\n" ++
  "\t\t\tand TABLE_SCHEMA = '" ++ schema ++ "'\n" ++
  "\t\t\tand CONSTRAINT_TYPE = 'REFERENTIAL'\n\t\t"

/-- The `IDX_SQL` text of `H2Dialect.get_indexes` (src lines 443-455). -/
def IDX_SQL (table_name schema : String) : String :=
  "\n\t\t  SELECT\n" ++
  "\t\t\tINDEX_NAME,\n" ++
  "\t\t\tNON_UNIQUE,\n" ++
  "\t\t\tCOLUMN_NAME\n" ++
  "\t\tFROM\n" ++
  "\t\t\tINFORMATION_SCHEMA.INDEXES\n" ++
  "\t\tWHERE\n" ++
  "\t\t\tTABLE_NAME= '" ++ table_name ++ "'\n" ++
  "\t\t\tAND TABLE_SCHEMA = '" ++ schema ++ "'\n\t\t"

/-! ## Column reflection (`get_columns`) -/

/-- The SQLAlchemy column type classes the `ischema_names` table maps to. -/
inductive SAType where
  | BIGINT | BINARY | BLOB | BOOLEAN | CHAR | CLOB | DATE | DECIMAL
  | NUMERIC | INTEGER | SMALLINT | TIME | TIMESTAMP | VARCHAR
deriving DecidableEq, Repr

/-- The module-level `ischema_names` dictionary (src lines 36-55). -/
def ischema_names : List (String × SAType) :=
  [("BIGINT", .BIGINT), ("BINARY", .BINARY), ("BLOB", .BLOB),
   ("BOOLEAN", .BOOLEAN), ("CHAR", .CHAR), ("CLOB", .CLOB),
   ("DATE", .DATE), ("DECIMAL", .DECIMAL), ("DOUBLE", .NUMERIC),
   ("INT", .INTEGER), ("INTEGER", .INTEGER), ("SMALLINT", .SMALLINT),
   ("TIME", .TIME), ("TIMESTAMP", .TIMESTAMP), ("VARCHAR", .VARCHAR),
   ("VARCHAR_IGNORECASE", .VARCHAR)]

/-- Dictionary access `ischema_names[type_name]`, `none` when the key is
absent (Python raises `KeyError` there). -/
def ischema_lookup (type_name : String) : Option SAType :=
  (ischema_names.find? (fun p => p.1 = type_name)).map (fun p => p.2)

/-- One row of the `SQL_COLS` result, typed per the source's `typemap`:
`COLUMN_NAME`, `TYPE_NAME`, `COLUMN_DEFAULT` (nullable), `IS_NULLABLE`,
`AUTO_INCREMENT` (a scalar subquery, so possibly NULL) and
`CHARACTER_MAXIMUM_LENGTH` (nullable, never read by the parser). -/
structure ColRow where
  column_name : String
  type_name : String
  column_default : Option String
  is_nullable : Bool
  auto_increment : Option Bool
  char_max_length : Option Int
deriving DecidableEq, Repr

/-- The normalized column record `get_columns` appends per row
(`column_info = dict(name=..., type=..., nullable=..., default=...,
autoincrement=...)`, src lines 334-335). -/
structure ColumnInfo where
  name : String
  type : SAType
  nullable : Bool
  default : Option String
  autoincrement : Option Bool
deriving DecidableEq, Repr

/-- Whether `.*$` matches a whole remainder `l` in a Python regex without
DOTALL or MULTILINE: `.` never matches a newline and `$` matches at the end
of the string or just before one final newline, so `l` may contain at most
one newline, as its last character. -/
def dollarTailOk (l : List Char) : Bool :=
  match l.getLast? with
  | some '\n' => !(l.dropLast.contains '\n')
  | _ => !(l.contains '\n')

/-- Scan for the `([^\.]+)('.*$)` part of the sequence-default pattern in the
suffix after a `NEXT VALUE FOR ` literal: a single quote at index `i ≥ 1`
with no dot before it, whose tail satisfies `.*$`.  The scan stops at the
first dot, since `[^\.]+` cannot pass one. -/
def seqQuoteScan : List Char → Nat → Bool
  | [], _ => false
  | c :: t, i =>
    if c = '.' then false
    else if c = '\'' && decide (1 ≤ i) && dollarTailOk t then true
    else seqQuoteScan t (i + 1)

/-- Whether `re.search(r"(NEXT VALUE FOR )([^\.]+)('.*$)", s)` finds a match
(src line 321): some occurrence of the literal `NEXT VALUE FOR ` is followed
by at least one non-dot character and then a single-quote character whose
tail matches `.*$`. -/
def seq_default_match : List Char → Bool
  | [] => false
  | c :: t =>
    (("NEXT VALUE FOR ".data.isPrefixOf (c :: t)) &&
      seqQuoteScan ((c :: t).drop "NEXT VALUE FOR ".length) 0)
    || seq_default_match t

/-- The per-row body of the `get_columns` loop (src lines 242-336): the
sequence-default override of `autoincrement`, then the `ischema_names`
dictionary access, whose `KeyError` aborts the call. -/
def parse_col_row (r : ColRow) : Except String ColumnInfo :=
  let autoincrement : Option Bool :=
    match r.column_default with
    | some d => if seq_default_match d.data then some true else r.auto_increment
    | none => r.auto_increment
  match ischema_lookup r.type_name with
  | some ty =>
      .ok ⟨r.column_name, ty, r.is_nullable, r.column_default, autoincrement⟩
  | none => .error ("KeyError: " ++ r.type_name)

/-- The row loop of `H2Dialect.get_columns` over the fetched rows: each row is
parsed in order and a raised `KeyError` propagates, so no partial list is
returned. -/
def get_columns_rows : List ColRow → Except String (List ColumnInfo)
  | [] => .ok []
  | r :: rs =>
    match parse_col_row r with
    | .error e => .error e
    | .ok c =>
      match get_columns_rows rs with
      | .error e => .error e
      | .ok cs => .ok (c :: cs)

/-- `H2Dialect.get_columns` as a function of the connection (src lines
204-337): default the schema, send `SQL_COLS`, parse the rows. -/
def get_columns_op (conn : String → List ColRow) (table_name : String)
    (schema : Option String) : Except String (List ColumnInfo) :=
  get_columns_rows (conn (SQL_COLS table_name (schema.getD get_default_schema_name)))

/-! ## `has_table`, `table_names`, primary keys -/

/-- The result part of `H2Dialect.has_table` (src lines 194-197):
`row = rs.fetchone(); return (row is not None)`. -/
def has_table_rows (rows : List String) : Bool := rows.head?.isSome

/-- `H2Dialect.has_table` as a function of the connection. -/
def has_table_op (conn : String → List String) (table_name : String)
    (schema : Option String) : Bool :=
  has_table_rows (conn (has_table_SQL table_name schema))

/-- `H2Dialect.table_names` as a function of the connection (src lines
151-161): the rows of the listing query, in order. -/
def table_names_op (conn : String → List String) (schema : Option String) :
    List String :=
  conn (table_names_SQL schema)

/-- `H2Dialect.get_primary_keys` as a function of the connection (src lines
340-355): the `COLUMN_NAME` rows, in order. -/
def get_primary_keys_op (conn : String → List String) (table_name : String)
    (schema : Option String) : List String :=
  conn (PK_SQL table_name (schema.getD get_default_schema_name))

/-- The record `H2Dialect.get_pk_constraint` returns (src lines 380-383). -/
structure PKConstraint where
  constrained_columns : List String
  name : Option String
deriving DecidableEq, Repr

/-- `H2Dialect.get_pk_constraint` (src lines 358-383): defaults the schema
once, delegates to `get_primary_keys` with that explicit schema, and takes
`c.scalar()` of the constraint-name query (first row or `None`). -/
def get_pk_constraint_op (connPK connCons : String → List String)
    (table_name : String) (schema : Option String) : PKConstraint :=
  let sch := schema.getD get_default_schema_name
  ⟨get_primary_keys_op connPK table_name (some sch),
   (connCons (PK_CONS_SQL table_name sch)).head?⟩

/-! ## Foreign keys (`get_foreign_keys`)

The constraint-definition text is parsed by
`re.search('FOREIGN KEY\\((.*?)\\).*?REFERENCES (?:(.*?)\\.)?(.*?)\\((.*?)\\)', condef)`
(src line 410) and the two column lists are split by `re.split(r'\s*,\s*', ...)`
and `re.split(r'\s*,\s', ...)` (src lines 415 and 426).  The matcher below
implements the engine's leftmost, lazy strategy for this fixed pattern:
every candidate for a lazy `.*?` group is tried in order of length, a
candidate is newline-free (`.` does not match a newline), and the optional
schema group is tried before it is skipped. -/

/-- Split `l` at the first occurrence of the literal `pat`: the characters
before it and the characters after it. -/
def splitAtLit (pat : List Char) : List Char → Option (List Char × List Char)
  | [] => if pat.isPrefixOf ([] : List Char) then some ([], []) else none
  | c :: t =>
    if pat.isPrefixOf (c :: t) then some ([], (c :: t).drop pat.length)
    else
      match splitAtLit pat t with
      | some (b, a) => some (c :: b, a)
      | none => none

/-- `splitAtLit`, failing when a newline stands before the occurrence: a lazy
`.*?` cannot reach past a newline, and every later occurrence is past the
same newline. -/
def splitAtLitNoNL (pat : List Char) (l : List Char) :
    Option (List Char × List Char) :=
  match splitAtLit pat l with
  | some (b, a) => if b.contains '\n' then none else some (b, a)
  | none => none

/-- A lazy `(.*?)c` step: the newline-free characters before the first `c`,
and the characters after it. -/
def upToCharNoNL (c : Char) (l : List Char) : Option (List Char × List Char) :=
  splitAtLitNoNL [c] l

/-- Every split of `l` at a dot, leftmost first: the candidates a lazy
`(.*?)\.` tries for the optional schema group. -/
def dotCandidates : List Char → List (List Char × List Char)
  | [] => []
  | c :: t =>
    if c = '.' then
      ([], t) :: (dotCandidates t).map (fun p => (c :: p.1, p.2))
    else (dotCandidates t).map (fun p => (c :: p.1, p.2))

/-- Try one dot candidate for `(?:(.*?)\.)?(.*?)\((.*?)\)`: the schema group
must be newline-free, then the table group runs to the first `(` and the
column group to the first `)`. -/
def tryDot (p : List Char × List Char) :
    Option (Option (List Char) × List Char × List Char) :=
  if p.1.contains '\n' then none
  else
    match upToCharNoNL '(' p.2 with
    | some (g3, r1) =>
      match upToCharNoNL ')' r1 with
      | some (g4, _) => some (some p.1, g3, g4)
      | none => none
    | none => none

/-- Parse `(?:(.*?)\.)?(.*?)\((.*?)\)` against `l`: the optional schema group
participates if some dot candidate completes, else it is skipped. -/
def refTail (l : List Char) :
    Option (Option (List Char) × List Char × List Char) :=
  match (dotCandidates l).findSome? tryDot with
  | some g => some g
  | none =>
    match upToCharNoNL '(' l with
    | some (g3, r1) =>
      match upToCharNoNL ')' r1 with
      | some (g4, _) => some (none, g3, g4)
      | none => none
    | none => none

/-- Parse the pattern's tail after a `FOREIGN KEY(` literal: the constrained
column group to the first `)`, the lazy gap to the `REFERENCES ` literal,
then the referred part. -/
def fkBody (rest : List Char) :
    Option (List Char × Option (List Char) × List Char × List Char) :=
  match upToCharNoNL ')' rest with
  | some (g1, r1) =>
    match splitAtLitNoNL "REFERENCES ".data r1 with
    | some (_, r2) =>
      match refTail r2 with
      | some (g2, g3, g4) => some (g1, g2, g3, g4)
      | none => none
    | none => none
  | none => none

/-- `re.search` of the foreign-key pattern: try each occurrence of the
leading `FOREIGN KEY(` literal left to right and return the four groups of
the first that completes. -/
def fk_search : List Char → Option (List Char × Option (List Char) × List Char × List Char)
  | [] => none
  | c :: t =>
    match
      (if "FOREIGN KEY(".data.isPrefixOf (c :: t) then
        fkBody ((c :: t).drop "FOREIGN KEY(".length)
      else none) with
    | some g => some g
    | none => fk_search t

/-- Python's `\s` on ASCII text: space, tab, newline, carriage return,
vertical tab and form feed. -/
def isPySpace (c : Char) : Bool :=
  c = ' ' || c = '\t' || c = '\n' || c = '\r' || c = '\x0b' || c = '\x0c'

/-- Length of the maximal whitespace prefix: the greedy `\s*`. -/
def wsLen : List Char → Nat
  | [] => 0
  | c :: t => if isPySpace c then wsLen t + 1 else 0

/-- Leftmost match of `\s*,\s*` at the head of `l`: the consumed length, or
`none`.  The greedy `\s*` runs take the maximal whitespace runs around the
comma (backtracking the first run never helps, a shorter prefix of a
whitespace run still ends on whitespace, not on the comma). -/
def sepCommaWsStar (l : List Char) : Option Nat :=
  let w := wsLen l
  match l.drop w with
  | ',' :: t => some (w + 1 + wsLen t)
  | _ => none

/-- Leftmost match of `\s*,\s` at the head of `l`: the comma must be followed
by exactly one whitespace character. -/
def sepCommaWs (l : List Char) : Option Nat :=
  let w := wsLen l
  match l.drop w with
  | ',' :: c :: _ => if isPySpace c then some (w + 2) else none
  | _ => none

/-- `re.split` over a separator matcher `m`: scan left to right, cut at each
leftmost separator match and continue after it.  `fuel` bounds the recursion;
with `fuel = l.length` it never runs out, because both of `m`'s matchers
consume at least one character. -/
def reSplitF (m : List Char → Option Nat) :
    Nat → List Char → List Char → List (List Char)
  | 0, l, acc => [acc.reverse ++ l]
  | _ + 1, [], acc => [acc.reverse]
  | fuel + 1, c :: t, acc =>
    match m (c :: t) with
    | some k => acc.reverse :: reSplitF m fuel ((c :: t).drop k) []
    | none => reSplitF m fuel t (c :: acc)

/-- `re.split(pattern, s)` for the two comma patterns of the source. -/
def re_split (m : List Char → Option Nat) (l : List Char) : List (List Char) :=
  reSplitF m l.length l []

/-- The foreign-key record `get_foreign_keys` appends per row
(`fkey_d`, src lines 427-433). -/
structure FKRec where
  name : String
  constrained_columns : List String
  referred_schema : Option String
  referred_table : String
  referred_columns : List String
deriving DecidableEq, Repr

/-- The per-row body of the `get_foreign_keys` loop (src lines 408-434),
given the already-defaulted `schema` local.  A failed `re.search` raises
(`.groups()` on `None` is an `AttributeError`).  An absent or empty schema
group is falsy in Python, so both fall to the conditional default, which
fires because the defaulted `schema` local is never `None` and is compared
with `self.default_schema_name`. -/
def fk_row (schema conname condef : String) : Except String FKRec :=
  match fk_search condef.data with
  | none => .error "AttributeError: NoneType has no attribute groups"
  | some (g1, g2, g3, g4) =>
    let constrained_columns :=
      (re_split sepCommaWsStar g1).map (fun x => unescape_identifier ⟨x⟩)
    let referred_schema : Option String :=
      match g2 with
      | some r =>
        if (⟨r⟩ : String) = "" then
          if schema = default_schema_name then some schema else none
        else some (unescape_identifier ⟨r⟩)
      | none => if schema = default_schema_name then some schema else none
    let referred_columns :=
      (re_split sepCommaWs g4).map (fun x => unescape_identifier ⟨x⟩)
    .ok ⟨conname, constrained_columns, referred_schema,
         unescape_identifier ⟨g3⟩, referred_columns⟩

/-- The row loop of `H2Dialect.get_foreign_keys` over the fetched
`(CONSTRAINT_NAME, condef)` rows: a raised `AttributeError` propagates. -/
def get_foreign_keys_rows (schema : String) :
    List (String × String) → Except String (List FKRec)
  | [] => .ok []
  | r :: rs =>
    match fk_row schema r.1 r.2 with
    | .error e => .error e
    | .ok d =>
      match get_foreign_keys_rows schema rs with
      | .error e => .error e
      | .ok ds => .ok (d :: ds)

/-- `H2Dialect.get_foreign_keys` as a function of the connection (src lines
386-435): default the schema once, send `FK_CONS_SQL`, parse the rows. -/
def get_foreign_keys_op (conn : String → List (String × String))
    (table_name : String) (schema : Option String) :
    Except String (List FKRec) :=
  let sch := schema.getD get_default_schema_name
  get_foreign_keys_rows sch (conn (FK_CONS_SQL table_name sch))

/-! ## Indexes (`get_indexes`) -/

/-- One row of the `IDX_SQL` result: `INDEX_NAME`, `NON_UNIQUE` (a boolean per
the `typemap`) and `COLUMN_NAME`. -/
structure IdxRow where
  index_name : String
  non_unique : Bool
  column_name : String
deriving DecidableEq, Repr

/-- The per-index record assembled by `get_indexes` (src lines 483-492):
`name` and `unique` are (re)assigned on every row of the index, a column is
appended per row. -/
structure IndexRec where
  name : String
  column_names : List String
  unique : Bool
deriving DecidableEq, Repr

/-- One iteration of the `get_indexes` row loop on the fold state.  The state
is the `indexes` list of records in creation order; the `index_names` dict of
the source holds aliases into the same list, so a key hit updates the
record in place and a miss appends a fresh record (src lines 483-492).  The
row's `unique` variable holds the `NON_UNIQUE` column and is stored without
negation. -/
def updIdx (st : List (String × IndexRec)) (r : IdxRow) :
    List (String × IndexRec) :=
  match st with
  | [] => [(r.index_name, ⟨r.index_name, [r.column_name], r.non_unique⟩)]
  | (n, d) :: rest =>
    if n = r.index_name then
      (n, ⟨r.index_name, d.column_names ++ [r.column_name], r.non_unique⟩) :: rest
    else (n, d) :: updIdx rest r

/-- The row loop of `H2Dialect.get_indexes` (src lines 462-493): fold the
rows and return the assembled records in creation order. -/
def get_indexes_rows (rows : List IdxRow) : List IndexRec :=
  (rows.foldl updIdx []).map Prod.snd

/-- `H2Dialect.get_indexes` as a function of the connection (src lines
437-493). -/
def get_indexes_op (conn : String → List IdxRow) (table_name : String)
    (schema : Option String) : List IndexRec :=
  get_indexes_rows (conn (IDX_SQL table_name (schema.getD get_default_schema_name)))

/-! ## Specification-side descriptions of the index fold

The next three definitions state, from the outside, what folding a row list
into the state does; the characterization theorem below proves the fold equal
to them. -/

/-- What processing the rows `l` (all carrying the key `k`) does to an
existing record `d`: the name is reassigned per row, one column is appended
per row, and `unique` is overwritten with each row's `NON_UNIQUE`. -/
def updRec (k : String) (d : IndexRec) (l : List IdxRow) : IndexRec :=
  ⟨match l with | [] => d.name | _ => k,
   d.column_names ++ l.map (fun r => r.column_name),
   (l.map (fun r => r.non_unique)).getLastD d.unique⟩

/-- The record a fresh index name `n` ends with after its rows `l` are
processed. -/
def mkRec (n : String) (l : List IdxRow) : IndexRec :=
  ⟨n, l.map (fun r => r.column_name),
   (l.map (fun r => r.non_unique)).getLastD false⟩

/-- The index names of `rows` not in `seen`, in first-seen order: the keys the
fold appends to the state, in order of creation. -/
def newNames : List IdxRow → List String → List String
  | [], _ => []
  | r :: rs, seen =>
    if r.index_name ∈ seen then newNames rs seen
    else r.index_name :: newNames rs (seen ++ [r.index_name])

/-! # Theorems -/

/-- C1: the source's sequence-default pattern `(NEXT VALUE FOR )([^\.]+)('.*$)`
requires a single-quote character after the sequence name, so on the catalog
default text `NEXT VALUE FOR SEQ_X` the regex does not match and the
`AUTO_INCREMENT` value of the type-metadata join (here `false`) is returned
unchanged, not forced to `true`. -/
theorem C1_seq_default_not_forced :
    seq_default_match "NEXT VALUE FOR SEQ_X".data = false ∧
    get_columns_rows [⟨"ID", "INTEGER", some "NEXT VALUE FOR SEQ_X", false, some false, none⟩]
      = .ok [⟨"ID", .INTEGER, false, some "NEXT VALUE FOR SEQ_X", some false⟩] :=
  ⟨rfl, rfl⟩

/-- C2 counterexample: a foreign-key row without an explicit referred schema,
reflected with `schema=None`, gets `referred_schema` set to `PUBLIC` — not
left unset — because `get_foreign_keys` overwrites the `None` argument with
the default schema before the heuristic compares it with
`default_schema_name`. -/
theorem C2_schema_none_sets_referred_schema :
    get_foreign_keys_op (fun _ => [("fk1", "FOREIGN KEY(A) REFERENCES TBL2(X)")]) "T" none
      = .ok [⟨"fk1", ["A"], some "PUBLIC", "TBL2", ["X"]⟩] ∧
    (some "PUBLIC" : Option String) ≠ none :=
  ⟨rfl, by decide⟩

/-- C2 amended: when the definition text has no explicit referred schema,
`referred_schema` is set to the effective schema — the schema argument with
`None` replaced by the default before the check — exactly when that effective
schema equals the dialect's recorded default; in particular `schema=None`
yields `referred_schema=PUBLIC`. -/
theorem C2_referred_schema_heuristic (schema : Option String) :
    get_foreign_keys_op (fun _ => [("fk1", "FOREIGN KEY(A) REFERENCES TBL2(X)")]) "T" schema
      = .ok [⟨"fk1", ["A"],
              if schema.getD get_default_schema_name = default_schema_name then
                some (schema.getD get_default_schema_name)
              else none,
              "TBL2", ["X"]⟩] := by
  cases schema <;> rfl

/-- C3: the round trip on `FOREIGN KEY(a, b) REFERENCES SCHEMA2.TBL2(x, y)`:
whatever schema the table itself was reflected with, the parsed record has
the constrained columns `[a, b]`, referred schema `SCHEMA2`, referred table
`TBL2` and referred columns `[x, y]`. -/
theorem C3_fk_definition_round_trip (schema : Option String) (conname : String) :
    get_foreign_keys_op
        (fun _ => [(conname, "FOREIGN KEY(a, b) REFERENCES SCHEMA2.TBL2(x, y)")]) "T" schema
      = .ok [⟨conname, ["a", "b"], some "SCHEMA2", "TBL2", ["x", "y"]⟩] := by
  cases schema <;> rfl

/-- C7 counterexample: with two rows in the filtered listing, `has_table`
returns `true` (it only checks `fetchone() is not None`), while the claim's
"exactly one row" reading demands `false`. -/
theorem C7_two_rows_still_true :
    has_table_rows ["T", "T"] = true ∧ ¬ ((["T", "T"] : List String).length = 1) := by
  decide

/-- C7 amended: `has_table` returns `true` iff at least one row matches the
filtered table-listing query. -/
theorem C7_true_iff_some_row (rows : List String) :
    has_table_rows rows = true ↔ rows ≠ [] := by
  cases rows <;> simp [has_table_rows]

/-- C4 counterexample: `get_columns` substitutes the table name verbatim, so
two names differing only in case — equal once upper-cased — produce different
query texts: the name is not case-normalized there. -/
theorem C4_get_columns_not_normalized :
    upper "users" = upper "USERS" ∧
    SQL_COLS "users" "PUBLIC" ≠ SQL_COLS "USERS" "PUBLIC" := by
  constructor
  · decide
  · decide

/-- C4 amended: only `table_names` and `has_table` upper-case the
user-supplied names before substitution (their query texts depend on the
names only through `upper`); the column, primary-key, foreign-key and index
queries substitute the names verbatim and so distinguish names that differ
only in case. -/
theorem C4_only_listing_queries_normalize :
    (∀ s₁ s₂ : String, upper s₁ = upper s₂ →
      table_names_SQL (some s₁) = table_names_SQL (some s₂)) ∧
    (∀ t₁ t₂ s₁ s₂ : String, upper t₁ = upper t₂ → upper s₁ = upper s₂ →
      has_table_SQL t₁ (some s₁) = has_table_SQL t₂ (some s₂)) ∧
    (upper "tbl" = upper "TBL" ∧
      SQL_COLS "tbl" "PUBLIC" ≠ SQL_COLS "TBL" "PUBLIC" ∧
      PK_SQL "tbl" "PUBLIC" ≠ PK_SQL "TBL" "PUBLIC" ∧
      FK_CONS_SQL "tbl" "PUBLIC" ≠ FK_CONS_SQL "TBL" "PUBLIC" ∧
      IDX_SQL "tbl" "PUBLIC" ≠ IDX_SQL "TBL" "PUBLIC") := by
  refine ⟨?_, ?_, by decide, by decide, by decide, by decide, by decide⟩
  · intro s₁ s₂ h
    simp [table_names_SQL, h]
  · intro t₁ t₂ s₁ s₂ ht hs
    simp [has_table_SQL, ht, hs]

/-- C4 witness: the table-listing query at a lower-case schema name equals the
one at its upper-cased form. -/
theorem C4_witness :
    upper "public" = upper "PUBLIC" ∧
    table_names_SQL (some "public") = table_names_SQL (some "PUBLIC") :=
  ⟨by decide, C4_only_listing_queries_normalize.1 "public" "PUBLIC" (by decide)⟩

/-- C5: whenever some fetched row's type name is absent from `ischema_names`,
`get_columns` raises (`KeyError`) instead of returning a column list, partial
or not. -/
theorem C5_unmapped_type_aborts (rows : List ColRow)
    (h : ∃ r ∈ rows, ischema_lookup r.type_name = none) :
    ∃ e, get_columns_rows rows = .error e := by
  induction rows with
  | nil => rcases h with ⟨r, hr, _⟩; cases hr
  | cons r rs ih =>
    rcases h with ⟨x, hx, hlook⟩
    rcases List.mem_cons.mp hx with rfl | hxs
    · refine ⟨"KeyError: " ++ x.type_name, ?_⟩
      simp [get_columns_rows, parse_col_row, hlook]
    · cases hp : parse_col_row r with
      | error e => exact ⟨e, by simp [get_columns_rows, hp]⟩
      | ok c =>
        rcases ih ⟨x, hxs, hlook⟩ with ⟨e, he⟩
        exact ⟨e, by simp [get_columns_rows, hp, he]⟩

/-- C5 witness: a row typed `FOOBAR` makes `get_columns` raise. -/
theorem C5_witness :
    (∃ r ∈ [(⟨"A", "FOOBAR", none, true, none, none⟩ : ColRow)],
        ischema_lookup r.type_name = none) ∧
    ∃ e, get_columns_rows [(⟨"A", "FOOBAR", none, true, none, none⟩ : ColRow)]
      = .error e :=
  ⟨by decide, C5_unmapped_type_aborts _ (by decide)⟩

/-- C8 counterexample: with `schema=None` the table listing is filtered by the
string literal `'PUBLIC'`, with `schema='PUBLIC'` by the unquoted identifier
`PUBLIC`; the two query texts differ, so a connection (here one that answers
the `None`-branch text with one row) returns different results. -/
theorem C8_table_names_public_differs :
    table_names_op (fun q => if q = table_names_SQL none then ["T"] else []) none ≠
    table_names_op (fun q => if q = table_names_SQL none then ["T"] else []) (some "PUBLIC") := by
  decide

/-- C8 amended: the five per-table operations build identical query texts for
`schema=None` and `schema="PUBLIC"` (both default to `PUBLIC` before
substitution), hence identical results on every connection; but the
`table_names` and `has_table` query texts differ between the two calls (bare
identifier versus quoted literal), so their results are not guaranteed
equal. -/
theorem C8_none_equals_public_per_table :
    (∀ (conn : String → List ColRow) (t : String),
      get_columns_op conn t none = get_columns_op conn t (some "PUBLIC")) ∧
    (∀ (conn : String → List String) (t : String),
      get_primary_keys_op conn t none = get_primary_keys_op conn t (some "PUBLIC")) ∧
    (∀ (connPK connCons : String → List String) (t : String),
      get_pk_constraint_op connPK connCons t none
        = get_pk_constraint_op connPK connCons t (some "PUBLIC")) ∧
    (∀ (conn : String → List (String × String)) (t : String),
      get_foreign_keys_op conn t none = get_foreign_keys_op conn t (some "PUBLIC")) ∧
    (∀ (conn : String → List IdxRow) (t : String),
      get_indexes_op conn t none = get_indexes_op conn t (some "PUBLIC")) ∧
    table_names_SQL none ≠ table_names_SQL (some "PUBLIC") ∧
    has_table_SQL "T" none ≠ has_table_SQL "T" (some "PUBLIC") :=
  ⟨fun _ _ => rfl, fun _ _ => rfl, fun _ _ _ => rfl, fun _ _ => rfl, fun _ _ => rfl,
   by decide, by decide⟩

/-- On a list without whitespace the `\s*,\s` separator never matches: the
single `\s` after the comma finds no whitespace character. -/
theorem sepCommaWs_eq_none (l : List Char) (h : ∀ c ∈ l, isPySpace c = false) :
    sepCommaWs l = none := by
  cases l with
  | nil => rfl
  | cons c t =>
    have hc := h c (List.mem_cons_self c t)
    simp only [sepCommaWs, wsLen, hc, if_false, List.drop_zero]
    split
    · rename_i c2 l2 heq
      obtain ⟨rfl, ht⟩ : c = ',' ∧ t = c2 :: l2 := by
        injection heq with h1 h2; exact ⟨h1, h2⟩
      have hc2 : isPySpace c2 = false := h c2 (by simp [ht])
      simp [hc2]
    · rfl

/-- The `re.split` scan over a list on which the matcher never fires leaves
the list whole. -/
theorem reSplitF_sepCommaWs_whole :
    ∀ (fuel : Nat) (l acc : List Char), (∀ c ∈ l, isPySpace c = false) →
      reSplitF sepCommaWs fuel l acc = [acc.reverse ++ l] := by
  intro fuel
  induction fuel with
  | zero => intro l acc _; rfl
  | succ n ih =>
    intro l acc h
    cases l with
    | nil => simp [reSplitF]
    | cons c t =>
      rw [reSplitF, sepCommaWs_eq_none _ h]
      rw [ih t (c :: acc) (fun x hx => h x (List.mem_cons_of_mem c hx))]
      simp

/-- C10: the referred-columns split pattern `\s*,\s` demands a whitespace
character after each comma, so a whitespace-free column list is returned as a
single token; on the definition `FOREIGN KEY(a, b) REFERENCES TBL2(x,y)` the
parsed `referred_columns` is the single token `x,y`, commas kept. -/
theorem C10_referred_split_needs_whitespace :
    (∀ l : List Char, (∀ c ∈ l, isPySpace c = false) →
      re_split sepCommaWs l = [l]) ∧
    get_foreign_keys_op
        (fun _ => [("fk1", "FOREIGN KEY(a, b) REFERENCES TBL2(x,y)")]) "T" (some "PUBLIC")
      = .ok [⟨"fk1", ["a", "b"], some "PUBLIC", "TBL2", ["x,y"]⟩] := by
  refine ⟨?_, rfl⟩
  intro l h
  unfold re_split
  rw [reSplitF_sepCommaWs_whole l.length l [] h]
  simp

/-- C10 witness: the whitespace-free list `x,y` splits into itself alone. -/
theorem C10_witness :
    (∀ c ∈ "x,y".data, isPySpace c = false) ∧
    re_split sepCommaWs "x,y".data = ["x,y".data] :=
  ⟨by decide, C10_referred_split_needs_whitespace.1 "x,y".data (by decide)⟩

/-- A row whose index name already keys the state updates that entry in
place: one column appended, `name` and `unique` reassigned. -/
theorem updIdx_of_mem (r : IdxRow) :
    ∀ st : List (String × IndexRec), r.index_name ∈ st.map Prod.fst →
      (st.map Prod.fst).Nodup →
      updIdx st r = st.map (fun p =>
        if p.1 = r.index_name then
          (p.1, ⟨r.index_name, p.2.column_names ++ [r.column_name], r.non_unique⟩)
        else p) := by
  intro st
  induction st with
  | nil => intro h _; simp at h
  | cons p rest ih =>
    intro h hnd
    obtain ⟨n, d⟩ := p
    simp only [List.map_cons, List.nodup_cons] at hnd
    by_cases hn : n = r.index_name
    · subst hn
      have hrest : ∀ q ∈ rest,
          (if q.1 = r.index_name then
            (q.1, (⟨r.index_name, q.2.column_names ++ [r.column_name],
                    r.non_unique⟩ : IndexRec))
          else q) = q := by
        intro q hq
        rw [if_neg]
        intro he
        exact hnd.1 (he ▸ List.mem_map_of_mem Prod.fst hq)
      simp only [updIdx, List.map_cons, eq_self_iff_true, if_true]
      rw [List.map_congr_left hrest, List.map_id']
    · have h' : r.index_name ∈ rest.map Prod.fst := by
        rcases List.mem_cons.mp h with h1 | h1
        · exact absurd h1.symm hn
        · exact h1
      simp only [updIdx, if_neg hn, List.map_cons, if_neg hn]
      rw [ih h' hnd.2]

/-- A row whose index name is new appends a fresh one-column record at the
end of the state. -/
theorem updIdx_of_not_mem (r : IdxRow) :
    ∀ st : List (String × IndexRec), r.index_name ∉ st.map Prod.fst →
      updIdx st r
        = st ++ [(r.index_name, ⟨r.index_name, [r.column_name], r.non_unique⟩)] := by
  intro st
  induction st with
  | nil => intro _; rfl
  | cons p rest ih =>
    intro h
    obtain ⟨n, d⟩ := p
    simp only [List.map_cons, List.mem_cons, not_or] at h
    have hn : ¬ (n = r.index_name) := fun he => h.1 he.symm
    simp only [updIdx, if_neg hn, List.cons_append]
    rw [ih h.2]

/-- A name produced by `newNames` was not yet seen. -/
theorem newNames_not_mem :
    ∀ (rows : List IdxRow) (seen : List String) (n : String),
      n ∈ newNames rows seen → n ∉ seen := by
  intro rows
  induction rows with
  | nil => intro seen n h; simp [newNames] at h
  | cons r rs ih =>
    intro seen n h
    by_cases hm : r.index_name ∈ seen
    · rw [newNames, if_pos hm] at h
      exact ih seen n h
    · rw [newNames, if_neg hm] at h
      rcases List.mem_cons.mp h with rfl | h2
      · exact hm
      · intro hin
        exact ih _ n h2 (by simp [hin])

/-- `newNames` never repeats a name. -/
theorem newNames_nodup : ∀ (rows : List IdxRow) (seen : List String),
    (newNames rows seen).Nodup := by
  intro rows
  induction rows with
  | nil => intro seen; simp [newNames]
  | cons r rs ih =>
    intro seen
    by_cases hm : r.index_name ∈ seen
    · rw [newNames, if_pos hm]; exact ih seen
    · rw [newNames, if_neg hm]
      refine List.nodup_cons.mpr ⟨?_, ih _⟩
      intro hmem
      exact newNames_not_mem rs _ _ hmem (by simp)

/-- Every row's index name is either already seen or produced by
`newNames`. -/
theorem newNames_covers :
    ∀ (rows : List IdxRow) (seen : List String) (r : IdxRow), r ∈ rows →
      r.index_name ∈ seen ∨ r.index_name ∈ newNames rows seen := by
  intro rows
  induction rows with
  | nil => intro seen r h; cases h
  | cons r' rs ih =>
    intro seen r h
    by_cases hm : r'.index_name ∈ seen
    · rw [newNames, if_pos hm]
      rcases List.mem_cons.mp h with rfl | h2
      · exact Or.inl hm
      · exact ih seen r h2
    · rw [newNames, if_neg hm]
      rcases List.mem_cons.mp h with rfl | h2
      · exact Or.inr (List.mem_cons_self _ _)
      · rcases ih (seen ++ [r'.index_name]) r h2 with h3 | h3
        · rcases List.mem_append.mp h3 with h4 | h4
          · exact Or.inl h4
          · simp only [List.mem_singleton] at h4
            exact Or.inr (by simp [h4])
        · exact Or.inr (List.mem_cons_of_mem _ h3)

/-- On a nonempty list the default of `getLast?.getD` is irrelevant. -/
theorem getLast?_getD_cons_eq {α : Type _} (a : α) (l : List α) (x y : α) :
    (a :: l).getLast?.getD x = (a :: l).getLast?.getD y := by
  rw [← List.getLastD_eq_getLast?, ← List.getLastD_eq_getLast?,
      List.getLastD_cons, List.getLastD_cons]

/-- Touching a record with one row and then processing the remaining rows is
processing all the rows. -/
theorem updRec_touch (k : String) (d : IndexRec) (r : IdxRow) (l : List IdxRow) :
    updRec k (⟨k, d.column_names ++ [r.column_name], r.non_unique⟩ : IndexRec) l
      = updRec k d (r :: l) := by
  cases l with
  | nil => simp [updRec, List.getLastD_cons]
  | cons a t =>
    simp [updRec, List.getLastD_cons]
    exact getLast?_getD_cons_eq _ _ _ _

/-- A fresh record made from one row and then processed over the remaining
rows is the record of all the rows. -/
theorem updRec_fresh (k : String) (r : IdxRow) (l : List IdxRow) :
    updRec k (⟨k, [r.column_name], r.non_unique⟩ : IndexRec) l = mkRec k (r :: l) := by
  cases l with
  | nil => simp [updRec, mkRec, List.getLastD_cons]
  | cons a t =>
    simp [updRec, mkRec, List.getLastD_cons]
    exact getLast?_getD_cons_eq _ _ _ _

/-- Characterization of the `get_indexes` fold: starting from a state with
distinct keys, folding the rows updates each existing entry by its rows (in
order) and appends, in first-seen order, one entry per new index name built
from that name's rows (in order). -/
theorem foldl_updIdx_char :
    ∀ (rows : List IdxRow) (st : List (String × IndexRec)),
      (st.map Prod.fst).Nodup →
      List.foldl updIdx st rows =
        st.map (fun p =>
          (p.1, updRec p.1 p.2 (rows.filter (fun x => x.index_name = p.1))))
        ++ (newNames rows (st.map Prod.fst)).map
            (fun n => (n, mkRec n (rows.filter (fun x => x.index_name = n)))) := by
  intro rows
  induction rows with
  | nil =>
    intro st _
    have hid : ∀ p ∈ st,
        (p.1, updRec p.1 p.2 (([] : List IdxRow).filter (fun x => x.index_name = p.1)))
          = p := by
      intro p _
      simp [updRec]
    simp only [List.foldl_nil, newNames, List.map_nil, List.append_nil]
    rw [List.map_congr_left hid, List.map_id']
  | cons r rs ih =>
    intro st hnd
    rw [List.foldl_cons]
    by_cases hm : r.index_name ∈ st.map Prod.fst
    · rw [updIdx_of_mem r st hm hnd]
      have hkeys : (st.map (fun p =>
          if p.1 = r.index_name then
            (p.1, (⟨r.index_name, p.2.column_names ++ [r.column_name],
                    r.non_unique⟩ : IndexRec))
          else p)).map Prod.fst = st.map Prod.fst := by
        rw [List.map_map]
        apply List.map_congr_left
        intro p _
        by_cases hp : p.1 = r.index_name <;> simp [hp]
      rw [ih _ (by rw [hkeys]; exact hnd), hkeys, List.map_map]
      congr 1
      · apply List.map_congr_left
        intro p hp
        by_cases hp1 : p.1 = r.index_name
        · simp only [Function.comp_apply, if_pos hp1]
          rw [List.filter_cons, if_pos (by simp [hp1]), hp1]
          exact congrArg (fun x => (r.index_name, x)) (updRec_touch r.index_name p.2 r _)
        · simp only [Function.comp_apply, if_neg hp1]
          rw [List.filter_cons, if_neg (by simp [Ne.symm hp1])]
      · rw [newNames, if_pos hm]
        apply List.map_congr_left
        intro n hn
        have hne : r.index_name ≠ n := by
          intro he
          exact (newNames_not_mem rs _ n hn) (he ▸ hm)
        rw [List.filter_cons, if_neg (by simp [hne])]
    · rw [updIdx_of_not_mem r st hm]
      have hkeys2 : ((st ++ [(r.index_name,
          (⟨r.index_name, [r.column_name], r.non_unique⟩ : IndexRec))]).map Prod.fst)
          = st.map Prod.fst ++ [r.index_name] := by
        simp
      have hnd2 : (((st ++ [(r.index_name,
          (⟨r.index_name, [r.column_name], r.non_unique⟩ : IndexRec))]).map
            Prod.fst)).Nodup := by
        rw [hkeys2]
        refine List.Nodup.append hnd (by simp) ?_
        intro a ha hb
        simp only [List.mem_singleton] at hb
        exact hm (hb ▸ ha)
      rw [ih _ hnd2, hkeys2, newNames, if_neg hm, List.map_append, List.append_assoc]
      congr 1
      · apply List.map_congr_left
        intro p hp
        have hne : r.index_name ≠ p.1 :=
          fun he => hm (he ▸ List.mem_map_of_mem Prod.fst hp)
        rw [List.filter_cons, if_neg (by simp [hne])]
      · simp only [List.map_cons, List.map_nil, List.cons_append, List.nil_append]
        congr 1
        · rw [List.filter_cons, if_pos (by simp)]
          exact congrArg (fun x => (r.index_name, x)) (updRec_fresh r.index_name r _)
        · apply List.map_congr_left
          intro n hn
          have hne : r.index_name ≠ n := by
            intro he
            exact newNames_not_mem rs _ n hn (by simp [he])
          rw [List.filter_cons, if_neg (by simp [hne])]

/-- `get_indexes` returns, in first-seen order, one record per index name,
assembled from that name's rows. -/
theorem get_indexes_rows_char (rows : List IdxRow) :
    get_indexes_rows rows
      = (newNames rows []).map
          (fun n => mkRec n (rows.filter (fun x => x.index_name = n))) := by
  unfold get_indexes_rows
  rw [foldl_updIdx_char rows [] (by simp)]
  simp [List.map_map, Function.comp_def]

/-- `getLastD` over an all-false boolean list with default `false` is
`false`. -/
theorem getLastD_false_of_all (l : List Bool) (h : ∀ b ∈ l, b = false) :
    l.getLastD false = false := by
  induction l with
  | nil => rfl
  | cons a t ih =>
    rw [List.getLastD_cons, h a (List.mem_cons_self a t)]
    exact ih (fun b hb => h b (List.mem_cons_of_mem a hb))

/-- C6: rows sharing an index name are folded into exactly one record per
name (the returned names repeat no name and cover every row's name), whose
`column_names` lists the rows' column values in row order and whose length
is the number of rows carrying that name. -/
theorem C6_indexes_fold_by_name (rows : List IdxRow) :
    ((get_indexes_rows rows).map (fun d => d.name)).Nodup ∧
    (∀ r ∈ rows, r.index_name ∈ (get_indexes_rows rows).map (fun d => d.name)) ∧
    (∀ d ∈ get_indexes_rows rows,
      d.column_names
          = (rows.filter (fun x => x.index_name = d.name)).map (fun x => x.column_name) ∧
      d.column_names.length = (rows.filter (fun x => x.index_name = d.name)).length) := by
  have hnames : (get_indexes_rows rows).map (fun d => d.name) = newNames rows [] := by
    rw [get_indexes_rows_char, List.map_map]
    exact List.map_id' _
  refine ⟨?_, ?_, ?_⟩
  · rw [hnames]; exact newNames_nodup rows []
  · intro r hr
    rw [hnames]
    rcases newNames_covers rows [] r hr with h | h
    · cases h
    · exact h
  · intro d hd
    rw [get_indexes_rows_char] at hd
    rcases List.mem_map.mp hd with ⟨n, _, rfl⟩
    exact ⟨by simp [mkRec], by simp [mkRec]⟩

/-- C6 witness: two rows named `IX` fold into the single record whose columns
are `[A, B]`. -/
theorem C6_witness :
    ((⟨"IX", ["A", "B"], true⟩ : IndexRec) ∈
        get_indexes_rows [⟨"IX", false, "A"⟩, ⟨"IX", true, "B"⟩]) ∧
    ((⟨"IX", ["A", "B"], true⟩ : IndexRec).column_names
        = ([(⟨"IX", false, "A"⟩ : IdxRow), ⟨"IX", true, "B"⟩].filter
            (fun x => x.index_name = (⟨"IX", ["A", "B"], true⟩ : IndexRec).name)).map
            (fun x => x.column_name) ∧
      (⟨"IX", ["A", "B"], true⟩ : IndexRec).column_names.length
        = ([(⟨"IX", false, "A"⟩ : IdxRow), ⟨"IX", true, "B"⟩].filter
            (fun x => x.index_name = (⟨"IX", ["A", "B"], true⟩ : IndexRec).name)).length) :=
  ⟨by decide, (C6_indexes_fold_by_name _).2.2 _ (by decide)⟩

/-- C9: each returned record's `unique` field is the `NON_UNIQUE` flag of the
last-processed row for that index name, stored without negation; in
particular, when every row of the set carries `NON_UNIQUE=false` (a unique
index), the record reports `unique=false`. -/
theorem C9_index_unique_last_row (rows : List IdxRow) :
    (∀ d ∈ get_indexes_rows rows,
      d.unique = ((rows.filter (fun x => x.index_name = d.name)).map
          (fun x => x.non_unique)).getLastD false) ∧
    (∀ d ∈ get_indexes_rows rows, (∀ r ∈ rows, r.non_unique = false) →
      d.unique = false) := by
  have h1 : ∀ d ∈ get_indexes_rows rows,
      d.unique = ((rows.filter (fun x => x.index_name = d.name)).map
          (fun x => x.non_unique)).getLastD false := by
    intro d hd
    rw [get_indexes_rows_char] at hd
    rcases List.mem_map.mp hd with ⟨n, _, rfl⟩
    simp [mkRec]
  refine ⟨h1, ?_⟩
  intro d hd hall
  rw [h1 d hd]
  apply getLastD_false_of_all
  intro b hb
  rcases List.mem_map.mp hb with ⟨x, hx, rfl⟩
  exact hall x (List.mem_of_mem_filter hx)

/-- C9 witness: a one-row unique index (`NON_UNIQUE=false`) reports
`unique=false`. -/
theorem C9_witness :
    ((⟨"IU", ["A"], false⟩ : IndexRec) ∈ get_indexes_rows [⟨"IU", false, "A"⟩]) ∧
    (⟨"IU", ["A"], false⟩ : IndexRec).unique
      = (([(⟨"IU", false, "A"⟩ : IdxRow)].filter
          (fun x => x.index_name = (⟨"IU", ["A"], false⟩ : IndexRec).name)).map
          (fun x => x.non_unique)).getLastD false :=
  ⟨by decide, (C9_index_unique_last_row _).1 _ (by decide)⟩

end H2
